import Mathlib

/-!
# Verification of the hybrid information-retrieval core

A shallow embedding of the retrieval engine of the Hybrid-Information-Retrieval-System
repository (src/eval.py, src/hybrid_retrieve.py, src/retrieve.py, src/feedback.py,
src/indexer.py), together with theorems settling the specification claims.

Modelling conventions:
* Python floats are modelled as real numbers (`ℝ`); the purely rational evaluation
  metrics (`precision_at_k`, `average_precision`) are modelled over `ℚ` so that they
  can be evaluated by `decide`.
* External library collaborators (the fitted sklearn `TfidfVectorizer`, the
  sentence-transformers encoder, `normalize_text`'s NLTK internals) are passed as
  function parameters; their outputs are what the repository's own code consumes.
* `sklearn.metrics.pairwise.cosine_similarity` is modelled by its documented
  mathematics: `dot u v / (‖u‖ * ‖v‖)`, where a zero-norm argument yields score 0
  (sklearn normalizes rows, leaving all-zero rows as zero).
* `np.argsort` (applied to the negated scores) is modelled as a deterministic
  descending argsort with ties broken by increasing index.  NumPy's default
  `kind='quicksort'` does not guarantee any tie order, so the tie-break is a
  modelling choice: theorems use it only where their conclusions do not depend on
  the order of equal scores.
* Python exceptions are modelled with `Except` / `Option`: the `assert` in
  `hybrid_search` becomes `Except.error`, and the `ZeroDivisionError` reachable in
  `precision_at_k` becomes `none`.
-/

/-! ## Evaluator (src/eval.py), rational part -/

/-- Hit count used by the metrics: `sum(1 for d in retrieved if d in relevant_set)`. -/
def hitCount (retrieved : List String) (relevant_set : Finset String) : ℕ :=
  retrieved.countP (fun d => decide (d ∈ relevant_set))

/-- `precision_at_k` from src/eval.py: the number of the first `k` retrieved ids that
are in `relevant_set`, divided by `k`.  Python raises `ZeroDivisionError` when
`k = 0`; this is modelled as `none`. -/
def precision_at_k (retrieved_ids : List String) (relevant_set : Finset String)
    (k : ℕ) : Option ℚ :=
  if k = 0 then none
  else some ((hitCount (retrieved_ids.take k) relevant_set : ℚ) / (k : ℚ))

/-- One iteration of the `average_precision` loop of src/eval.py.  The accumulator is
`(i, hits, sum_prec)` where `i` is the 1-based position of the next element. -/
def apStep (relevant_set : Finset String) (acc : ℕ × ℕ × ℚ) (d : String) : ℕ × ℕ × ℚ :=
  if d ∈ relevant_set then
    (acc.1 + 1, acc.2.1 + 1, acc.2.2 + ((acc.2.1 : ℚ) + 1) / (acc.1 : ℚ))
  else
    (acc.1 + 1, acc.2.1, acc.2.2)

/-- `average_precision` from src/eval.py: the for-loop is the fold of `apStep` started
at `(1, 0, 0.0)`; the function returns `0.0` when there was no hit, and otherwise the
accumulated sum divided by `len(relevant_set)`. -/
def average_precision (retrieved_ids : List String) (relevant_set : Finset String) : ℚ :=
  if (retrieved_ids.foldl (apStep relevant_set) (1, 0, 0)).2.1 = 0 then 0
  else (retrieved_ids.foldl (apStep relevant_set) (1, 0, 0)).2.2 / (relevant_set.card : ℚ)

/-- Follows the spec's words: the sum, over every rank `i+1` holding a relevant
document (detected as the hit count growing from prefix `i` to prefix `i+1`), of the
precision at that rank, i.e. `hitCount (take (i+1)) / (i+1)`.  Comparison definition
for the `average_precision` claim. -/
def apSpecSum (retrieved : List String) (relevant_set : Finset String) : ℚ :=
  ∑ i ∈ Finset.range retrieved.length,
    if hitCount (retrieved.take (i + 1)) relevant_set
        ≠ hitCount (retrieved.take i) relevant_set then
      (hitCount (retrieved.take (i + 1)) relevant_set : ℚ) / ((i : ℚ) + 1)
    else 0

/-! ## Evaluator (src/eval.py), DCG part (real-valued because of `math.log2`) -/

noncomputable section

/-- The loop of `dcg_at_k` from src/eval.py: position `i` (1-based) contributes its
raw binary relevance when `i = 1` and `relevance / log2(i)` otherwise. -/
noncomputable def dcgLoop (relevant_set : Finset String) : ℕ → List String → ℝ
  | _, [] => 0
  | i, d :: rest =>
    (let rel : ℝ := if d ∈ relevant_set then 1 else 0
     if i = 1 then rel else rel / Real.logb 2 i) + dcgLoop relevant_set (i + 1) rest

/-- `dcg_at_k` from src/eval.py. -/
noncomputable def dcg_at_k (retrieved_ids : List String) (relevant_set : Finset String)
    (k : ℕ) : ℝ :=
  dcgLoop relevant_set 1 (retrieved_ids.take k)

/-- The loop of `ndcg_at_k` from src/eval.py computing the ideal DCG of a
real-valued relevance sequence. -/
noncomputable def idcgLoop : ℕ → List ℝ → ℝ
  | _, [] => 0
  | i, x :: rest => (if i = 1 then x else x / Real.logb 2 i) + idcgLoop (i + 1) rest

/-- The ideal relevance sequence of src/eval.py:
`sorted([1]*len(relevant_set) + [0]*100, reverse=True)[:k]`; sorting the ones and
zeros in descending order yields the ones followed by the zeros. -/
noncomputable def idealRel (relevant_set : Finset String) (k : ℕ) : List ℝ :=
  (List.replicate relevant_set.card (1 : ℝ) ++ List.replicate 100 (0 : ℝ)).take k

/-- `ndcg_at_k` from src/eval.py: `dcg / idcg if idcg > 0 else 0.0`. -/
noncomputable def ndcg_at_k (retrieved_ids : List String) (relevant_set : Finset String)
    (k : ℕ) : ℝ :=
  let idcg := idcgLoop 1 (idealRel relevant_set k)
  if 0 < idcg then dcg_at_k retrieved_ids relevant_set k / idcg else 0

/-- The weight that a relevance of 1 at (1-based) rank `i` contributes to a DCG sum:
no discount at rank 1, `1 / log2 i` afterwards.  Used to state the value of the
ideal DCG. -/
noncomputable def discount (i : ℕ) : ℝ := if i = 1 then 1 else 1 / Real.logb 2 i

/-! ## Vectors and cosine similarity -/

/-- Dot product of two equally long real vectors (lists). -/
def dot (u v : List ℝ) : ℝ := (List.zipWith (· * ·) u v).sum

/-- Euclidean norm, `np.linalg.norm`. -/
noncomputable def norm2 (v : List ℝ) : ℝ := Real.sqrt (dot v v)

/-- `sklearn.metrics.pairwise.cosine_similarity` on a pair of vectors, by its
documented mathematics: sklearn L2-normalizes both arguments, leaving all-zero rows
as zero, so a zero-norm argument yields similarity 0. -/
noncomputable def cosineSim (u v : List ℝ) : ℝ :=
  if norm2 u = 0 ∨ norm2 v = 0 then 0 else dot u v / (norm2 u * norm2 v)

/-- `cosine_similarity(q, M).flatten()`: one similarity per document row. -/
noncomputable def cosineRows (q : List ℝ) (M : List (List ℝ)) : List ℝ :=
  M.map (cosineSim q)

/-! ## Ranking core: `(-scores).argsort()[:topk]` -/

/-- Priority order on `(index, score)` pairs used to model `(-scores).argsort()`:
larger score first, ties by smaller original index (`np.argsort` modelled as a
stable descending argsort). -/
def rankRel (p q : ℕ × ℝ) : Prop := q.2 < p.2 ∨ (p.2 = q.2 ∧ p.1 ≤ q.1)

instance : DecidableRel rankRel := fun _ _ =>
  inferInstanceAs (Decidable (_ ∨ _))

instance : IsTotal (ℕ × ℝ) rankRel :=
  ⟨fun p q => by
    rcases lt_trichotomy p.2 q.2 with h | h | h
    · exact Or.inr (Or.inl h)
    · rcases Nat.le_total p.1 q.1 with h' | h'
      · exact Or.inl (Or.inr ⟨h, h'⟩)
      · exact Or.inr (Or.inr ⟨h.symm, h'⟩)
    · exact Or.inl (Or.inl h)⟩

instance : IsTrans (ℕ × ℝ) rankRel :=
  ⟨fun p q r hpq hqr => by
    rcases hpq with h1 | ⟨h1, h1'⟩
    · rcases hqr with h2 | ⟨h2, h2'⟩
      · exact Or.inl (h2.trans h1)
      · exact Or.inl (h2 ▸ h1)
    · rcases hqr with h2 | ⟨h2, h2'⟩
      · exact Or.inl (h1 ▸ h2)
      · exact Or.inr ⟨h1.trans h2, h1'.trans h2'⟩⟩

/-- `(-scores).argsort()`: the indices `0, …, n-1` sorted by decreasing score.
The model is deterministic and breaks ties by increasing index; NumPy's default
`kind='quicksort'` is documented as *not* stable, so this tie order is a modelling
choice, not a program guarantee — theorems rely on it only where their conclusions
are independent of the tie order. -/
noncomputable def argsortDesc (scores : List ℝ) : List ℕ :=
  (List.insertionSort rankRel scores.enum).map Prod.fst

/-- The fusion formula of src/hybrid_retrieve.py:
`lambda_weight * sem_scores + (1 - lambda_weight) * tf_scores` (elementwise). -/
def fuse (lam : ℝ) (sem_scores tf_scores : List ℝ) : List ℝ :=
  List.zipWith (fun s t => lam * s + (1 - lam) * t) sem_scores tf_scores

/-! ## Index artifacts and the retrieval pipelines -/

/-- A row of the document table: `{id, title, text}`. -/
structure Document where
  id : String
  title : String
  text : String
deriving DecidableEq

/-- The lexical index artifacts consumed at query time
(`vectorizer, X, docs = load_index()`): the fitted vectorizer's `transform` on a
single string, the TF-IDF document matrix, and the document table. -/
structure LexIndex where
  transform : String → List ℝ
  X : List (List ℝ)
  docs : List Document

/-- The semantic index artifacts consumed at query time
(`emb_matrix, docs2, model = load_semantic_index()`): the encoder's `encode` on a
single string, the embedding matrix, and the document table. -/
structure SemIndex where
  encode : String → List ℝ
  emb : List (List ℝ)
  docs2 : List Document

/-- A row of the frame returned by `hybrid_search` / `apply_feedback_for_query`:
`docs.iloc[idx].assign(score=…, tf_score=…, sem_score=…)`.  `row` is the original
row label that `iloc` preserves. -/
structure RankedRow where
  row : ℕ
  doc : Document
  score : ℝ
  tf_score : ℝ
  sem_score : ℝ

/-- A row of the frame returned by `tfidf_search`: `docs.iloc[idx].assign(score=…)`. -/
structure LexRow where
  row : ℕ
  doc : Document
  score : ℝ

/-- The ranking computed by `hybrid_search` (src/hybrid_retrieve.py) after the
alignment assertion: TF-IDF scores of the normalized query, semantic scores of the
raw query, fusion, and selection of the top-`topk` indices. -/
noncomputable def hybridRanking (lex : LexIndex) (semI : SemIndex)
    (normalize_text : String → String) (query : String) (topk : ℕ) (lam : ℝ) :
    List RankedRow :=
  let tf_scores := cosineRows (lex.transform (normalize_text query)) lex.X
  let sem_scores := cosineRows (semI.encode query) semI.emb
  let scores := fuse lam sem_scores tf_scores
  let idx := (argsortDesc scores).take topk
  idx.map (fun i =>
    ⟨i, lex.docs.getD i ⟨"", "", ""⟩, scores.getD i 0,
      tf_scores.getD i 0, sem_scores.getD i 0⟩)

/-- `hybrid_search` from src/hybrid_retrieve.py.  The statement
`assert len(docs)==len(docs2)` halts the call with an `AssertionError` when the two
document tables have different lengths; the subsequent computation is
`hybridRanking`. -/
noncomputable def hybrid_search (lex : LexIndex) (semI : SemIndex)
    (normalize_text : String → String) (query : String) (topk : ℕ) (lam : ℝ) :
    Except String (List RankedRow) :=
  if lex.docs.length = semI.docs2.length then
    .ok (hybridRanking lex semI normalize_text query topk lam)
  else .error "AssertionError"

/-- `tfidf_search` from src/retrieve.py: rank by TF-IDF cosine similarity of the
normalized query alone. -/
noncomputable def tfidf_search (lex : LexIndex) (normalize_text : String → String)
    (query : String) (topk : ℕ) : List LexRow :=
  let scores := cosineRows (lex.transform (normalize_text query)) lex.X
  let idx := (argsortDesc scores).take topk
  idx.map (fun i => ⟨i, lex.docs.getD i ⟨"", "", ""⟩, scores.getD i 0⟩)

/-- Follows the spec's words: a pure semantic cosine-similarity ranking (the raw
query encoded, ranked by semantic similarity alone).  There is no such function in
the code; this is the comparison definition for the `lambda_weight = 1` degenerate
case. -/
noncomputable def pureSemanticRanking (semI : SemIndex) (query : String) (topk : ℕ) :
    List LexRow :=
  let scores := cosineRows (semI.encode query) semI.emb
  let idx := (argsortDesc scores).take topk
  idx.map (fun i => ⟨i, semI.docs2.getD i ⟨"", "", ""⟩, scores.getD i 0⟩)

/-! ## Relevance feedback (src/feedback.py) -/

/-- `ALPHA = 1.0` from src/feedback.py. -/
def ALPHA : ℝ := 1

/-- `BETA = 0.8` from src/feedback.py. -/
def BETA : ℝ := 4 / 5

/-- `GAMMA = 0.0` from src/feedback.py. -/
def GAMMA : ℝ := 0

/-- `1e-9`, the epsilon added to the denominator in `rocchio_emb`. -/
def rocchioEps : ℝ := 1 / 1000000000

/-- Elementwise sum of two vectors. -/
def addVec (u v : List ℝ) : List ℝ := List.zipWith (· + ·) u v

/-- Elementwise difference of two vectors. -/
def subVec (u v : List ℝ) : List ℝ := List.zipWith (· - ·) u v

/-- Scalar multiple of a vector. -/
def smulVec (c : ℝ) (v : List ℝ) : List ℝ := v.map (fun x => c * x)

/-- `np.mean(rows, axis=0)` of a non-empty list of rows: the elementwise sum divided
by the number of rows (`[]` for no rows; the code never takes the mean of an empty
collection). -/
def meanVec : List (List ℝ) → List ℝ
  | [] => []
  | r :: rs => smulVec (1 / ((rs.length : ℝ) + 1)) (rs.foldl addVec r)

/-- `rocchio_tfidf` from src/feedback.py: `new_q = alpha * q`, then
`new_q += beta * mean(rel)` when relevant vectors were supplied and non-empty, then
`new_q -= gamma * mean(nonrel)` likewise.  No normalization. -/
def rocchio_tfidf (query_vec : List ℝ) (rel_doc_vecs nonrel_doc_vecs : Option (List (List ℝ)))
    (alpha beta gamma : ℝ) : List ℝ :=
  let new1 := smulVec alpha query_vec
  let new2 := match rel_doc_vecs with
    | some l => if 0 < l.length then addVec new1 (smulVec beta (meanVec l)) else new1
    | none => new1
  match nonrel_doc_vecs with
  | some l => if 0 < l.length then subVec new2 (smulVec gamma (meanVec l)) else new2
  | none => new2

/-- `rocchio_emb` from src/feedback.py: the same combination as `rocchio_tfidf`,
followed by `new_q / (np.linalg.norm(new_q) + 1e-9)`. -/
noncomputable def rocchio_emb (query_emb : List ℝ)
    (rel_embs nonrel_embs : Option (List (List ℝ))) (alpha beta gamma : ℝ) : List ℝ :=
  let base := rocchio_tfidf query_emb rel_embs nonrel_embs alpha beta gamma
  base.map (fun x => x / (norm2 base + rocchioEps))

/-- Follows the spec's words: the Rocchio update
`alpha * q + beta * mean(relevant) - gamma * mean(nonrelevant)` where each mean term
is omitted (contributes zero) when its document set is empty.  Comparison definition
for the Rocchio claim. -/
def rocchioSpec (q : List ℝ) (rel nonrel : List (List ℝ)) (alpha beta gamma : ℝ) :
    List ℝ :=
  let t1 := smulVec alpha q
  let t2 := if rel.isEmpty then t1 else addVec t1 (smulVec beta (meanVec rel))
  if nonrel.isEmpty then t2 else subVec t2 (smulVec gamma (meanVec nonrel))

/-- How src/feedback.py builds the optional relevant-vector arguments:
`X[rel_idxs] if len(rel_idxs) > 0 else None`. -/
def someIfNonempty (l : List (List ℝ)) : Option (List (List ℝ)) :=
  if 0 < l.length then some l else none

/-- `doc_index_map` lookup from src/feedback.py:
`{d: i for i, d in enumerate(docs['id'])}` maps an id to the row index of its
last occurrence. -/
def docIndexMap (docs : List Document) (did : String) : Option ℕ :=
  ((docs.enum.filter (fun p => p.2.id = did)).map Prod.fst).getLast?

/-- `apply_feedback_for_query` from src/feedback.py.  Note that the TF-IDF query
vector is `vectorizer.transform([qtext])` on the raw query text (no
`normalize_text`), unlike `hybrid_search`. -/
noncomputable def apply_feedback_for_query (lex : LexIndex) (semI : SemIndex)
    (qtext : String) (clicked_doc_ids : List String) (topk : ℕ) (lam : ℝ) :
    List RankedRow :=
  let qv := lex.transform qtext
  let q_emb := semI.encode qtext
  let rel_idxs := clicked_doc_ids.filterMap (docIndexMap lex.docs)
  let rel_tfidf_vectors := someIfNonempty (rel_idxs.map (fun i => lex.X.getD i []))
  let rel_embs := someIfNonempty (rel_idxs.map (fun i => semI.emb.getD i []))
  let qv_new := rocchio_tfidf qv rel_tfidf_vectors none ALPHA BETA GAMMA
  let q_emb_new := rocchio_emb q_emb rel_embs none ALPHA BETA GAMMA
  let tf_scores := cosineRows qv_new lex.X
  let sem_scores := cosineRows q_emb_new semI.emb
  let scores := fuse lam sem_scores tf_scores
  let idx := (argsortDesc scores).take topk
  idx.map (fun i =>
    ⟨i, lex.docs.getD i ⟨"", "", ""⟩, scores.getD i 0,
      tf_scores.getD i 0, sem_scores.getD i 0⟩)

end

/-! ## Lexical index persistence (src/indexer.py)

`build_index` persists the fitted vectorizer and the matrix with `joblib` (an exact
binary round-trip, modelled as storing the value itself) and the document table with
`DataFrame.to_csv`; `load_index` reads them back, the table with `pd.read_csv`,
whose per-column dtype inference turns a column of integer-looking strings into an
integer column. -/

/-- A cell of a loaded document table: `pd.read_csv` produces strings, inferred
integers, or NaN (for an empty field). -/
inductive CellValue where
  | str : String → CellValue
  | int : ℕ → CellValue
  | nan : CellValue
deriving DecidableEq

/-- A row of the corpus handed to `build_index` by `load_cranfield` (all columns are
strings; ids were made strings by `astype(str)`). -/
structure CorpusRow where
  id : String
  title : String
  text : String
deriving DecidableEq

/-- A row of the in-memory document table produced by `build_index` (the corpus
columns plus `text_norm`). -/
structure DocsRow where
  id : String
  title : String
  text : String
  text_norm : String
deriving DecidableEq

/-- The document table as a pandas object: one list of cells per column
(`id`, `title`, `text`, `text_norm`). -/
structure DocsTable where
  idCol : List CellValue
  titleCol : List CellValue
  textCol : List CellValue
  textNormCol : List CellValue
deriving DecidableEq

/-- The durable storage written by `build_index` and read by `load_index`:
two joblib artifacts and the `docs.csv` cell grid (CSV quoting round-trips each cell
text exactly, so the file is modelled as its grid of cell strings). -/
structure Storage (V M : Type) where
  tfidf : Option V
  matrix : Option M
  docsCsv : Option (List (List String))

/-- The cells of one CSV row written by `DataFrame.to_csv`. -/
def toCsvCells (r : DocsRow) : List String := [r.id, r.title, r.text, r.text_norm]

/-- Whether `pd.read_csv` reads a cell text as an integer: non-empty, all digits. -/
def isIntString (s : String) : Bool := !s.data.isEmpty && s.data.all Char.isDigit

/-- Decimal value of a digit string (by its character list). -/
def digitsToNat (cs : List Char) : ℕ := cs.foldl (fun n c => 10 * n + (c.toNat - 48)) 0

/-- `pd.read_csv` column dtype inference: a column whose cells all look like
integers becomes an integer column; otherwise it stays an object column with empty
fields read as NaN. -/
def parseColumn (cells : List String) : List CellValue :=
  if (!cells.isEmpty) && cells.all isIntString then
    cells.map (fun s => CellValue.int (digitsToNat s.data))
  else
    cells.map (fun s => if s = "" then CellValue.nan else CellValue.str s)

/-- `pd.read_csv` on the stored `docs.csv` grid. -/
def read_docs_csv (grid : List (List String)) : DocsTable :=
  ⟨parseColumn (grid.map (fun r => r.getD 0 "")),
   parseColumn (grid.map (fun r => r.getD 1 "")),
   parseColumn (grid.map (fun r => r.getD 2 "")),
   parseColumn (grid.map (fun r => r.getD 3 ""))⟩

/-- The in-memory table produced by `build_index`, viewed as a pandas object:
every column is a string (object) column. -/
def docsAsCells (docs : List DocsRow) : DocsTable :=
  ⟨docs.map (fun r => CellValue.str r.id),
   docs.map (fun r => CellValue.str r.title),
   docs.map (fun r => CellValue.str r.text),
   docs.map (fun r => CellValue.str r.text_norm)⟩

/-- `build_index` from src/indexer.py: normalize the text column into `text_norm`,
fit the vectorizer (the sklearn fit is the parameter `fit`, consuming the normalized
texts), and persist all three artifacts.  Returns the produced artifacts and the new
storage state. -/
def build_index {V M : Type} (fit : List String → V × M)
    (normalize_text : String → String) (corpus : List CorpusRow)
    (_st : Storage V M) : (V × M × List DocsRow) × Storage V M :=
  let docs : List DocsRow :=
    corpus.map (fun r => ⟨r.id, r.title, r.text, normalize_text r.text⟩)
  let fitted := fit (docs.map (fun r => r.text_norm))
  ((fitted.1, fitted.2, docs),
    ⟨some fitted.1, some fitted.2, some (docs.map toCsvCells)⟩)

/-- `load_index` from src/indexer.py: if all three artifacts are present, load them
(the table through `read_docs_csv`); on any missing artifact, rebuild everything.
The returned table is a pandas object in both cases, so the build path is viewed
through `docsAsCells`. -/
def load_index {V M : Type} (fit : List String → V × M)
    (normalize_text : String → String) (corpus : List CorpusRow)
    (st : Storage V M) : V × M × DocsTable :=
  match st.tfidf, st.matrix, st.docsCsv with
  | some v, some X, some grid => (v, X, read_docs_csv grid)
  | _, _, _ =>
    let built := build_index fit normalize_text corpus st
    (built.1.1, built.1.2.1, docsAsCells built.1.2.2)

/-! ## Concrete instances used by witnesses and counterexamples -/

noncomputable section

/-- A trivial one-document index pair (everything zero) for witness instantiation. -/
noncomputable def lexW : LexIndex :=
  ⟨fun _ => [0], [[0]], [⟨"1", "t", "x"⟩]⟩

/-- Semantic half of the trivial witness index pair. -/
noncomputable def semW : SemIndex :=
  ⟨fun _ => [0], [[0]], [⟨"1", "t", "x"⟩]⟩

/-- Lexical index for the misalignment counterexample: ids `a, b`. -/
noncomputable def lexM : LexIndex :=
  ⟨fun _ => [0], [[0], [0]], [⟨"a", "", ""⟩, ⟨"b", "", ""⟩]⟩

/-- Semantic index for the misalignment counterexample: same length, ids `b, a`. -/
noncomputable def semM : SemIndex :=
  ⟨fun _ => [0], [[0], [0]], [⟨"b", "", ""⟩, ⟨"a", "", ""⟩]⟩

/-- Lexical index for the feedback counterexample.  The vocabulary was fitted on
stemmed text (dimension 0 = "stress", dimension 1 = "run"): the normalized query
"run stress" hits both dimensions, the raw query "running stress" only dimension 0
("running" is out of vocabulary).  Document rows: doc 1 about stress, doc 2 about
both. -/
noncomputable def lexC : LexIndex :=
  ⟨fun s => if s = "run stress" then [1, 1]
            else if s = "running stress" then [1, 0] else [0, 0],
   [[1, 0], [2, 2]],
   [⟨"1", "", ""⟩, ⟨"2", "", ""⟩]⟩

/-- Semantic index for the feedback counterexample (all embeddings zero, so the
semantic scores vanish and `lambda_weight = 0` isolates the lexical path). -/
noncomputable def semC : SemIndex :=
  ⟨fun _ => [0], [[0], [0]], [⟨"1", "", ""⟩, ⟨"2", "", ""⟩]⟩

/-- `normalize_text` as fitted to the counterexample query: stems
"running stress" to "run stress". -/
def nrmC : String → String := fun _ => "run stress"

end

/-! ## Vector algebra lemmas -/

theorem dot_cons (x y : ℝ) (xs ys : List ℝ) :
    dot (x :: xs) (y :: ys) = x * y + dot xs ys := by
  simp [dot]

theorem dot_smul_left (c : ℝ) (u v : List ℝ) :
    dot (smulVec c u) v = c * dot u v := by
  induction u generalizing v with
  | nil => simp [dot, smulVec]
  | cons x xs ih =>
    cases v with
    | nil => simp [dot, smulVec]
    | cons y ys =>
      simp only [smulVec, List.map_cons] at *
      rw [dot_cons, dot_cons, ih, mul_add, mul_assoc]

theorem dot_smul_right (c : ℝ) (u v : List ℝ) :
    dot u (smulVec c v) = c * dot u v := by
  induction u generalizing v with
  | nil => simp [dot, smulVec]
  | cons x xs ih =>
    cases v with
    | nil => simp [dot, smulVec]
    | cons y ys =>
      simp only [smulVec, List.map_cons] at *
      rw [dot_cons, dot_cons, ih, mul_add]
      ring_nf

theorem smulVec_one (v : List ℝ) : smulVec 1 v = v := by
  simp [smulVec]

theorem norm2_smul (c : ℝ) (hc : 0 ≤ c) (u : List ℝ) :
    norm2 (smulVec c u) = c * norm2 u := by
  unfold norm2
  rw [dot_smul_left, dot_smul_right, ← mul_assoc, ← sq,
    Real.sqrt_mul (sq_nonneg c), Real.sqrt_sq hc]

theorem norm2_nonneg (v : List ℝ) : 0 ≤ norm2 v := Real.sqrt_nonneg _

theorem cosineSim_smul_left (c : ℝ) (hc : 0 < c) (u v : List ℝ) :
    cosineSim (smulVec c u) v = cosineSim u v := by
  unfold cosineSim
  rw [norm2_smul c hc.le]
  by_cases h : norm2 u = 0 ∨ norm2 v = 0
  · rcases h with h | h <;> simp [h, hc.ne']
  · push_neg at h
    rw [if_neg (by push_neg; exact ⟨mul_ne_zero hc.ne' h.1, h.2⟩),
      if_neg (by push_neg; exact h), dot_smul_left, mul_assoc,
      mul_div_mul_left _ _ hc.ne']

theorem map_div_eq_smulVec (v : List ℝ) (d : ℝ) :
    v.map (fun x => x / d) = smulVec d⁻¹ v := by
  simp [smulVec, div_eq_mul_inv, mul_comm]

theorem rocchioEps_pos : 0 < rocchioEps := by norm_num [rocchioEps]

theorem cosineSim_renormalized (u v : List ℝ) :
    cosineSim (u.map (fun x => x / (norm2 u + rocchioEps))) v = cosineSim u v := by
  rw [map_div_eq_smulVec]
  exact cosineSim_smul_left _
    (inv_pos.mpr (add_pos_of_nonneg_of_pos (norm2_nonneg u) rocchioEps_pos)) u v

theorem cosineRows_length (q : List ℝ) (M : List (List ℝ)) :
    (cosineRows q M).length = M.length := by
  simp [cosineRows]

/-! ## Fusion degeneracy lemmas -/

theorem fuse_zero (a b : List ℝ) (h : a.length = b.length) : fuse 0 a b = b := by
  induction a generalizing b with
  | nil => cases b with
    | nil => rfl
    | cons y ys => simp at h
  | cons x xs ih =>
    cases b with
    | nil => simp at h
    | cons y ys =>
      have h' : xs.length = ys.length := by simpa using h
      simp only [fuse, List.zipWith_cons_cons] at *
      rw [ih ys h']
      norm_num

theorem fuse_one (a b : List ℝ) (h : a.length = b.length) : fuse 1 a b = a := by
  induction a generalizing b with
  | nil => rfl
  | cons x xs ih =>
    cases b with
    | nil => simp at h
    | cons y ys =>
      have h' : xs.length = ys.length := by simpa using h
      simp only [fuse, List.zipWith_cons_cons] at *
      rw [ih ys h']
      norm_num

/-! ## Argsort lemmas -/

theorem argsortDesc_perm_range (s : List ℝ) :
    (argsortDesc s).Perm (List.range s.length) := by
  unfold argsortDesc
  simpa [List.enum_map_fst] using (List.perm_insertionSort rankRel s.enum).map Prod.fst

theorem argsortDesc_nodup (s : List ℝ) : (argsortDesc s).Nodup :=
  (argsortDesc_perm_range s).nodup_iff.mpr (List.nodup_range _)

theorem mem_argsortDesc {s : List ℝ} {i : ℕ} (h : i ∈ argsortDesc s) : i < s.length := by
  have := (argsortDesc_perm_range s).mem_iff.mp h
  simpa using this

theorem snd_eq_getD_of_mem_enum {s : List ℝ} {p : ℕ × ℝ} (h : p ∈ s.enum) :
    p.2 = s.getD p.1 0 := by
  rw [List.mem_enum_iff_getElem?] at h
  rw [List.getD_eq_getElem?_getD, h, Option.getD_some]

theorem argsortDesc_pairwise (s : List ℝ) :
    (argsortDesc s).Pairwise
      (fun i j => s.getD j 0 < s.getD i 0 ∨ (s.getD i 0 = s.getD j 0 ∧ i < j)) := by
  have hsorted : (List.insertionSort rankRel s.enum).Pairwise rankRel :=
    List.sorted_insertionSort rankRel s.enum
  have hmem : ∀ p ∈ List.insertionSort rankRel s.enum, p ∈ s.enum := fun p hp =>
    (List.perm_insertionSort rankRel s.enum).mem_iff.mp hp
  have hP : (List.insertionSort rankRel s.enum).Pairwise
      (fun p q : ℕ × ℝ =>
        s.getD q.1 0 < s.getD p.1 0 ∨ (s.getD p.1 0 = s.getD q.1 0 ∧ p.1 ≤ q.1)) := by
    refine hsorted.imp_of_mem (fun {p q} hp hq hpq => ?_)
    rw [← snd_eq_getD_of_mem_enum (hmem p hp), ← snd_eq_getD_of_mem_enum (hmem q hq)]
    exact hpq
  have hle : (argsortDesc s).Pairwise
      (fun i j => s.getD j 0 < s.getD i 0 ∨ (s.getD i 0 = s.getD j 0 ∧ i ≤ j)) := by
    unfold argsortDesc
    exact List.pairwise_map.mpr hP
  have hne : (argsortDesc s).Pairwise (fun i j : ℕ => i ≠ j) := argsortDesc_nodup s
  refine (hle.and hne).imp (fun {i j} h => ?_)
  rcases h with ⟨hlt | ⟨heq, hij⟩, hne'⟩
  · exact Or.inl hlt
  · exact Or.inr ⟨heq, lt_of_le_of_ne hij hne'⟩

/-! ## Evaluator lemmas -/

theorem hitCount_le_length (l : List String) (R : Finset String) :
    hitCount l R ≤ l.length :=
  List.countP_le_length _

theorem hitCount_sublist {l₁ l₂ : List String} (h : l₁.Sublist l₂) (R : Finset String) :
    hitCount l₁ R ≤ hitCount l₂ R :=
  h.countP_le _

theorem hitCount_append (l₁ l₂ : List String) (R : Finset String) :
    hitCount (l₁ ++ l₂) R = hitCount l₁ R + hitCount l₂ R :=
  List.countP_append _ _ _

theorem hitCount_singleton (d : String) (R : Finset String) :
    hitCount [d] R = if d ∈ R then 1 else 0 := by
  by_cases hd : d ∈ R <;> simp [hitCount, hd]

theorem apSpecSum_append_singleton (l : List String) (d : String) (R : Finset String) :
    apSpecSum (l ++ [d]) R
      = apSpecSum l R
        + (if d ∈ R then ((hitCount l R : ℚ) + 1) / ((l.length : ℚ) + 1) else 0) := by
  unfold apSpecSum
  rw [List.length_append, List.length_singleton, Finset.sum_range_succ]
  congr 1
  · refine Finset.sum_congr rfl (fun i hi => ?_)
    rw [Finset.mem_range] at hi
    rw [List.take_append_of_le_length (by omega),
      List.take_append_of_le_length (by omega)]
  · rw [List.take_append_of_le_length (le_refl _), List.take_length,
      List.take_of_length_le (by simp), hitCount_append, hitCount_singleton]
    by_cases hd : d ∈ R
    · rw [if_pos hd, if_pos hd, if_pos (by omega)]
      push_cast
      ring_nf
    · rw [if_neg hd, if_neg hd, if_neg (by omega)]

theorem ap_foldl_eq (R : Finset String) (r : List String) :
    r.foldl (apStep R) (1, 0, 0) = (r.length + 1, hitCount r R, apSpecSum r R) := by
  induction r using List.reverseRecOn with
  | nil => simp [hitCount, apSpecSum]
  | append_singleton l d ih =>
    rw [List.foldl_append, ih, List.foldl_cons, List.foldl_nil,
      apSpecSum_append_singleton, hitCount_append, hitCount_singleton]
    unfold apStep
    by_cases hd : d ∈ R
    · rw [if_pos hd, if_pos hd, if_pos hd]
      simp only [List.length_append, List.length_singleton]
      push_cast
      ring_nf
    · rw [if_neg hd, if_neg hd, if_neg hd]
      simp

theorem apSpecSum_eq_zero_of_no_hit {r : List String} {R : Finset String}
    (h : hitCount r R = 0) : apSpecSum r R = 0 := by
  unfold apSpecSum
  refine Finset.sum_eq_zero (fun i _ => ?_)
  have h1 : hitCount (r.take (i + 1)) R = 0 :=
    Nat.le_zero.mp (h ▸ hitCount_sublist (List.take_sublist _ _) R)
  have h0 : hitCount (r.take i) R = 0 :=
    Nat.le_zero.mp (h ▸ hitCount_sublist (List.take_sublist _ _) R)
  rw [h1, h0, if_neg (by omega)]

/-- C5: for every retrieved id sequence, relevant set and `k ≥ 1`, `precision_at_k`
divides the number of relevant ids among the first `k` retrieved by `k` (by `k` even
when fewer than `k` were retrieved), its value lies in `[0, 1]`, it is exactly 1
when all of the first `k` retrieved ids are relevant, and exactly 0 when none
are. -/
theorem precision_at_k_spec (retrieved : List String) (R : Finset String) (k : ℕ)
    (hk : 1 ≤ k) :
    precision_at_k retrieved R k
        = some ((hitCount (retrieved.take k) R : ℚ) / (k : ℚ))
  ∧ (∀ q, precision_at_k retrieved R k = some q → 0 ≤ q ∧ q ≤ 1)
  ∧ (k ≤ retrieved.length → (∀ d ∈ retrieved.take k, d ∈ R) →
      precision_at_k retrieved R k = some 1)
  ∧ ((∀ d ∈ retrieved.take k, d ∉ R) → precision_at_k retrieved R k = some 0) := by
  have hk0 : k ≠ 0 := by omega
  have hform : precision_at_k retrieved R k
      = some ((hitCount (retrieved.take k) R : ℚ) / (k : ℚ)) := by
    unfold precision_at_k
    rw [if_neg hk0]
  refine ⟨hform, ?_, ?_, ?_⟩
  · intro q hq
    rw [hform, Option.some_inj] at hq
    subst hq
    constructor
    · positivity
    · rw [div_le_one (by exact_mod_cast Nat.pos_of_ne_zero hk0)]
      exact_mod_cast (hitCount_le_length _ R).trans (List.length_take_le k retrieved)
  · intro hlen hall
    rw [hform]
    have hcnt : hitCount (retrieved.take k) R = (retrieved.take k).length := by
      rw [hitCount, List.countP_eq_length]
      intro d hd
      simpa using hall d hd
    rw [hcnt, List.length_take, min_eq_left hlen, div_self (by exact_mod_cast hk0)]
  · intro hnone
    rw [hform]
    have hcnt : hitCount (retrieved.take k) R = 0 := by
      rw [hitCount, List.countP_eq_zero]
      intro d hd
      simpa using hnone d hd
    rw [hcnt]
    norm_num

theorem precision_at_k_spec_witness :
    precision_at_k ["1", "2"] ({"1", "2"} : Finset String) 2 = some 1 :=
  (precision_at_k_spec ["1", "2"] {"1", "2"} 2 (by norm_num)).2.2.1 (by decide)
    (by decide)

/-- C10: `precision_at_k` divides by `k` with no guard: `k = 0` reaches the
division by zero (modelled as `none`), and every `k ≥ 1` yields a value. -/
theorem precision_at_k_requires_positive_k (retrieved : List String)
    (R : Finset String) (k : ℕ) :
    precision_at_k retrieved R 0 = none
  ∧ (1 ≤ k → (precision_at_k retrieved R k).isSome = true) := by
  constructor
  · rfl
  · intro hk
    unfold precision_at_k
    rw [if_neg (by omega)]
    rfl

theorem precision_at_k_requires_positive_k_witness :
    precision_at_k ["a"] (∅ : Finset String) 0 = none
  ∧ (precision_at_k ["a"] (∅ : Finset String) 1).isSome = true :=
  ⟨(precision_at_k_requires_positive_k ["a"] ∅ 1).1,
   (precision_at_k_requires_positive_k ["a"] ∅ 1).2 (by norm_num)⟩

/-- C6: `average_precision` is the sum of the precision at each hit rank, over all
relevant documents found anywhere in the retrieved list, divided by the size of the
relevant set; it is 0 when no relevant document is retrieved; and on the spec's
example (relevant `{1, 3}`, retrieved `[2, 1, 3]`) it equals
`((1/2) + (2/3)) / 2 = 7/12`. -/
theorem average_precision_spec (r : List String) (R : Finset String) :
    average_precision r R = apSpecSum r R / (R.card : ℚ)
  ∧ ((∀ d ∈ r, d ∉ R) → average_precision r R = 0)
  ∧ average_precision ["2", "1", "3"] ({"1", "3"} : Finset String) = 7 / 12 := by
  have hmain : average_precision r R = apSpecSum r R / (R.card : ℚ) := by
    unfold average_precision
    rw [ap_foldl_eq]
    by_cases h : hitCount r R = 0
    · rw [if_pos h, apSpecSum_eq_zero_of_no_hit h, zero_div]
    · rw [if_neg h]
  refine ⟨hmain, ?_, ?_⟩
  · intro hnone
    have h0 : hitCount r R = 0 := by
      rw [hitCount, List.countP_eq_zero]
      intro d hd
      simpa using hnone d hd
    rw [hmain, apSpecSum_eq_zero_of_no_hit h0, zero_div]
  · have hcard : ({"1", "3"} : Finset String).card = 2 := by decide
    have e2 : ¬(("2" : String) = "1" ∨ ("2" : String) = "3") := by decide
    have e1 : (("1" : String) = "1" ∨ ("1" : String) = "3") := by decide
    have e3 : (("3" : String) = "1" ∨ ("3" : String) = "3") := by decide
    norm_num [average_precision, apStep, List.foldl, hcard, Finset.mem_insert,
      Finset.mem_singleton, e1, e2, e3]

theorem average_precision_spec_witness :
    average_precision ["a"] ({"b"} : Finset String) = 0 :=
  (average_precision_spec ["a"] {"b"}).2.1 (by decide)

/-! ## DCG lemmas -/

theorem idcgLoop_append (n : ℕ) (l1 l2 : List ℝ) :
    idcgLoop n (l1 ++ l2) = idcgLoop n l1 + idcgLoop (n + l1.length) l2 := by
  induction l1 generalizing n with
  | nil => simp [idcgLoop]
  | cons x xs ih =>
    simp only [List.cons_append, idcgLoop, List.length_cons, List.append_eq]
    have hidx : n + 1 + xs.length = n + (xs.length + 1) := by omega
    rw [ih (n + 1), hidx]
    ring

theorem idcgLoop_replicate_zero (n m : ℕ) :
    idcgLoop n (List.replicate m 0) = 0 := by
  induction m generalizing n with
  | zero => rfl
  | succ m ih =>
    rw [List.replicate_succ]
    simp [idcgLoop, ih]

theorem idcgLoop_replicate_one (n m : ℕ) :
    idcgLoop n (List.replicate m 1) = ∑ j ∈ Finset.range m, discount (n + j) := by
  induction m generalizing n with
  | zero => simp [idcgLoop]
  | succ m ih =>
    rw [List.replicate_succ]
    simp only [idcgLoop]
    rw [ih (n + 1), Finset.sum_range_succ']
    have h1 : discount (n + 0) = if n = 1 then (1 : ℝ) else 1 / Real.logb 2 n := by
      simp [discount]
    have h2 : ∀ j ∈ Finset.range m, discount (n + 1 + j) = discount (n + (j + 1)) := by
      intro j _
      congr 1
      omega
    rw [Finset.sum_congr rfl h2, h1, add_comm]

theorem idcgLoop_nonneg {l : List ℝ} (h : ∀ x ∈ l, 0 ≤ x) :
    ∀ n, 1 ≤ n → 0 ≤ idcgLoop n l := by
  induction l with
  | nil =>
    intro n _
    simp [idcgLoop]
  | cons x xs ih =>
    intro n hn
    simp only [idcgLoop]
    refine add_nonneg ?_
      (ih (fun y hy => h y (List.mem_cons_of_mem x hy)) (n + 1) (by omega))
    have hx := h x (List.mem_cons_self x xs)
    by_cases hn1 : n = 1
    · rw [if_pos hn1]
      exact hx
    · rw [if_neg hn1]
      refine div_nonneg hx (Real.logb_nonneg (by norm_num) ?_)
      exact_mod_cast Nat.one_le_iff_ne_zero.mpr (by omega)

theorem idcgLoop_replicate_one_pos (k : ℕ) (hk : 1 ≤ k) :
    0 < idcgLoop 1 (List.replicate k (1 : ℝ)) := by
  obtain ⟨m, rfl⟩ : ∃ m, k = m + 1 := ⟨k - 1, by omega⟩
  rw [List.replicate_succ]
  simp only [idcgLoop]
  have hrest : 0 ≤ idcgLoop 2 (List.replicate m (1 : ℝ)) :=
    idcgLoop_nonneg
      (fun x hx => by rw [List.eq_of_mem_replicate hx]; norm_num) 2 (by omega)
  norm_num
  linarith

theorem dcgLoop_all_rel {R : Finset String} {l : List String}
    (h : ∀ d ∈ l, d ∈ R) (n : ℕ) :
    dcgLoop R n l = idcgLoop n (List.replicate l.length 1) := by
  induction l generalizing n with
  | nil => rfl
  | cons d rest ih =>
    have hd : d ∈ R := h d (List.mem_cons_self d rest)
    simp only [dcgLoop, List.length_cons, List.replicate_succ, idcgLoop, hd,
      if_true]
    rw [ih (fun x hx => h x (List.mem_cons_of_mem d hx)) (n + 1)]

theorem idealRel_of_le_card {R : Finset String} {k : ℕ} (hk : k ≤ R.card) :
    idealRel R k = List.replicate k 1 := by
  unfold idealRel
  rw [List.take_append_of_le_length (by simpa using hk), List.take_replicate,
    min_eq_left hk]

theorem idcg_eq (R : Finset String) (k : ℕ) :
    idcgLoop 1 (idealRel R k) = ∑ j ∈ Finset.range (min k R.card), discount (j + 1) := by
  unfold idealRel
  rw [List.take_append_eq_append_take, List.take_replicate, List.take_replicate,
    idcgLoop_append, idcgLoop_replicate_zero, add_zero, idcgLoop_replicate_one]
  refine Finset.sum_congr rfl (fun j _ => ?_)
  congr 1
  omega

/-- C7: the ideal DCG of `ndcg_at_k` is the discounted sum over
`min k |relevant_set|` ones (so the 100-zero padding and the truncation to `k`
never change its value); `ndcg_at_k` is 0 when no relevant documents exist; and it
is exactly 1 whenever the retrieved order places all relevant documents (all of
which are retrieved) before all non-relevant ones, for any `1 ≤ k ≤ |R|`. -/
theorem ndcg_at_k_spec (r : List String) (R : Finset String) (k : ℕ) :
    (idcgLoop 1 (idealRel R k) = ∑ j ∈ Finset.range (min k R.card), discount (j + 1))
  ∧ (R = ∅ → ndcg_at_k r R k = 0)
  ∧ (1 ≤ k → k ≤ R.card →
      ∀ pre post, r = pre ++ post → (∀ d ∈ pre, d ∈ R) → (∀ d ∈ post, d ∉ R) →
        (∀ d ∈ R, d ∈ pre) → ndcg_at_k r R k = 1) := by
  refine ⟨idcg_eq R k, ?_, ?_⟩
  · intro hR
    subst hR
    simp only [ndcg_at_k, idealRel, Finset.card_empty, List.replicate_zero,
      List.nil_append, List.take_replicate, idcgLoop_replicate_zero]
    norm_num
  · intro hk hkR pre post hsplit hpre _hpost hcov
    have hsub : R ⊆ pre.toFinset := fun d hd => List.mem_toFinset.mpr (hcov d hd)
    have hlenR : R.card ≤ pre.length :=
      le_trans (Finset.card_le_card hsub) pre.toFinset_card_le
    have hklen : k ≤ pre.length := hkR.trans hlenR
    have htake : r.take k = pre.take k := by
      rw [hsplit, List.take_append_of_le_length hklen]
    have htk_all : ∀ d ∈ r.take k, d ∈ R := by
      rw [htake]
      intro d hd
      exact hpre d (List.mem_of_mem_take hd)
    have hlen_take : (r.take k).length = k := by
      rw [List.length_take, min_eq_left]
      rw [hsplit, List.length_append]
      omega
    simp only [ndcg_at_k]
    rw [idealRel_of_le_card hkR, if_pos (idcgLoop_replicate_one_pos k hk)]
    unfold dcg_at_k
    rw [dcgLoop_all_rel htk_all 1, hlen_take]
    exact div_self (idcgLoop_replicate_one_pos k hk).ne'

theorem ndcg_at_k_spec_witness :
    ndcg_at_k ["1", "3", "2"] ({"1", "3"} : Finset String) 2 = 1 :=
  (ndcg_at_k_spec ["1", "3", "2"] {"1", "3"} 2).2.2 (by norm_num) (by decide)
    ["1", "3"] ["2"] rfl (by decide) (by decide) (by decide)

/-! ## Ranking pipeline lemmas -/

theorem hybrid_search_ok {lex : LexIndex} {semI : SemIndex}
    {nrm : String → String} {q : String} {k : ℕ} {lam : ℝ} {l : List RankedRow}
    (h : hybrid_search lex semI nrm q k lam = .ok l) :
    l = hybridRanking lex semI nrm q k lam := by
  unfold hybrid_search at h
  by_cases ha : lex.docs.length = semI.docs2.length
  · rw [if_pos ha] at h
    exact (Except.ok.inj h).symm
  · rw [if_neg ha] at h
    simp at h

theorem getD_id_eq_of_map_id_eq {docs1 docs2 : List Document}
    (h : docs1.map Document.id = docs2.map Document.id) (i : ℕ) :
    (docs1.getD i ⟨"", "", ""⟩).id = (docs2.getD i ⟨"", "", ""⟩).id := by
  have hlen : docs1.length = docs2.length := by
    have := congrArg List.length h
    simpa using this
  by_cases hi : i < docs1.length
  · have e1 : (docs1.map Document.id).getD i "" = (docs1.getD i ⟨"", "", ""⟩).id := by
      rw [List.getD_eq_getElem _ _ (by simpa using hi), List.getElem_map,
        List.getD_eq_getElem _ _ hi]
    have e2 : (docs2.map Document.id).getD i "" = (docs2.getD i ⟨"", "", ""⟩).id := by
      rw [List.getD_eq_getElem _ _ (by simpa using (hlen ▸ hi)), List.getElem_map,
        List.getD_eq_getElem _ _ (hlen ▸ hi)]
    rw [← e1, ← e2, h]
  · push_neg at hi
    rw [List.getD_eq_default _ _ hi, List.getD_eq_default _ _ (hlen ▸ hi)]

/-- C1: with `lambda_weight = 0` the ranking returned by `hybrid_search` is exactly
the pure lexical (TF-IDF cosine) ranking of `tfidf_search`, and with
`lambda_weight = 1` exactly the pure semantic cosine ranking — exact degenerate
cases of the fusion formula.  Rankings are compared as the sequences of
(row index, document id) pairs.  The hypotheses state that the two indexes are
well-formed: equal matrix row counts and row-aligned document ids. -/
theorem hybrid_lambda_degenerate (lex : LexIndex) (semI : SemIndex)
    (normalize_text : String → String) (query : String) (topk : ℕ)
    (hX : lex.X.length = semI.emb.length)
    (hIds : lex.docs.map Document.id = semI.docs2.map Document.id) :
    (∀ l, hybrid_search lex semI normalize_text query topk 0 = .ok l →
        l.map (fun r => (r.row, r.doc.id))
          = (tfidf_search lex normalize_text query topk).map
              (fun r => (r.row, r.doc.id)))
  ∧ (∀ l, hybrid_search lex semI normalize_text query topk 1 = .ok l →
        l.map (fun r => (r.row, r.doc.id))
          = (pureSemanticRanking semI query topk).map
              (fun r => (r.row, r.doc.id))) := by
  have hlens : (cosineRows (semI.encode query) semI.emb).length
      = (cosineRows (lex.transform (normalize_text query)) lex.X).length := by
    rw [cosineRows_length, cosineRows_length, hX]
  constructor
  · intro l hl
    rw [hybrid_search_ok hl]
    simp only [hybridRanking, tfidf_search]
    rw [fuse_zero _ _ hlens]
    simp only [List.map_map]
    rfl
  · intro l hl
    rw [hybrid_search_ok hl]
    simp only [hybridRanking, pureSemanticRanking]
    rw [fuse_one _ _ hlens]
    simp only [List.map_map]
    refine List.map_congr_left (fun i _ => ?_)
    simp only [Function.comp]
    rw [getD_id_eq_of_map_id_eq hIds i]

theorem hybrid_lambda_degenerate_witness :
    (hybridRanking lexW semW id "q" 2 0).map (fun r => (r.row, r.doc.id))
      = (tfidf_search lexW id "q" 2).map (fun r => (r.row, r.doc.id)) :=
  (hybrid_lambda_degenerate lexW semW id "q" 2 rfl rfl).1 _ rfl

/-- C3 (code bug): of the claim's three properties, the two that the program does
guarantee — result length at most `topk`, and fused scores monotonically
non-increasing along the result — are proved here; the second conjunct shows they
hold for *every* index order satisfying `np.argsort`'s contract (any permutation
along which the scores are non-increasing), i.e. independently of the tie order,
for which NumPy's default `kind='quicksort'` gives no guarantee.  The claim's
stable tie-break (equal fused scores in original row order) is exactly what the
unstable default sort does not provide; it is not formalized as a program
property. -/
theorem hybrid_result_length_monotone (lex : LexIndex) (semI : SemIndex)
    (normalize_text : String → String) (query : String) (topk : ℕ) (lam : ℝ)
    (l : List RankedRow)
    (h : hybrid_search lex semI normalize_text query topk lam = .ok l) :
    (l.length ≤ topk ∧ (l.map RankedRow.score).Sorted (· ≥ ·))
  ∧ (∀ (scores : List ℝ) (idx : List ℕ),
      idx.Pairwise (fun i j => scores.getD j 0 ≤ scores.getD i 0) →
      ((idx.take topk).map (fun i => scores.getD i 0)).Sorted (· ≥ ·)
        ∧ (idx.take topk).length ≤ topk) := by
  constructor
  · rw [hybrid_search_ok h]
    simp only [hybridRanking]
    set scores := fuse lam (cosineRows (semI.encode query) semI.emb)
      (cosineRows (lex.transform (normalize_text query)) lex.X) with hscores
    have hidx : ((argsortDesc scores).take topk).Pairwise
        (fun i j => scores.getD j 0 < scores.getD i 0
          ∨ (scores.getD i 0 = scores.getD j 0 ∧ i < j)) :=
      List.Pairwise.sublist (List.take_sublist _ _) (argsortDesc_pairwise scores)
    have hrows : (((argsortDesc scores).take topk).map (fun i =>
        (⟨i, lex.docs.getD i ⟨"", "", ""⟩, scores.getD i 0,
          (cosineRows (lex.transform (normalize_text query)) lex.X).getD i 0,
          (cosineRows (semI.encode query) semI.emb).getD i 0⟩ : RankedRow))).Pairwise
        (fun a b => b.score < a.score ∨ (a.score = b.score ∧ a.row < b.row)) :=
      List.pairwise_map.mpr hidx
    constructor
    · rw [List.length_map]
      exact List.length_take_le topk _
    · exact List.pairwise_map.mpr (hrows.imp (fun hab => by
        rcases hab with hlt | ⟨heq, _⟩
        · exact le_of_lt hlt
        · exact le_of_eq heq.symm))
  · intro scores idx hpair
    refine ⟨?_, List.length_take_le topk _⟩
    exact List.pairwise_map.mpr
      (List.Pairwise.sublist (List.take_sublist _ _) hpair)

theorem hybrid_result_length_monotone_witness :
    ((hybridRanking lexW semW id "q" 1 (1 / 2)).length ≤ 1
      ∧ ((hybridRanking lexW semW id "q" 1 (1 / 2)).map RankedRow.score).Sorted (· ≥ ·))
  ∧ ((([0].take 1).map (fun i => ([(0 : ℝ)]).getD i 0)).Sorted (· ≥ ·)
      ∧ ([0].take 1).length ≤ 1) :=
  ⟨(hybrid_result_length_monotone lexW semW id "q" 1 (1 / 2) _ rfl).1,
   (hybrid_result_length_monotone lexW semW id "q" 1 (1 / 2) _ rfl).2
     [(0 : ℝ)] [0] (by simp)⟩

/-- C4 (amended): `hybrid_search` halts with the assertion failure exactly when the
lexical and semantic document tables disagree on length; when the lengths agree the
ranking proceeds — the id order of the two tables is not checked. -/
theorem hybrid_alignment_length_only (lex : LexIndex) (semI : SemIndex)
    (normalize_text : String → String) (query : String) (topk : ℕ) (lam : ℝ) :
    (lex.docs.length ≠ semI.docs2.length →
      hybrid_search lex semI normalize_text query topk lam = .error "AssertionError")
  ∧ (lex.docs.length = semI.docs2.length →
      hybrid_search lex semI normalize_text query topk lam
        = .ok (hybridRanking lex semI normalize_text query topk lam)) := by
  constructor
  · intro hne
    unfold hybrid_search
    rw [if_neg hne]
  · intro heq
    unfold hybrid_search
    rw [if_pos heq]

theorem hybrid_alignment_length_only_witness :
    hybrid_search lexM semM id "q" 2 (1 / 2)
      = .ok (hybridRanking lexM semM id "q" 2 (1 / 2)) :=
  (hybrid_alignment_length_only lexM semM id "q" 2 (1 / 2)).2 rfl

/-- C4 counterexample: two document tables of equal length whose id orders
disagree; `hybrid_search` does not halt — it returns a ranking. -/
theorem hybrid_misalignment_undetected :
    lexM.docs.map Document.id ≠ semM.docs2.map Document.id
  ∧ lexM.docs.length = semM.docs2.length
  ∧ hybrid_search lexM semM id "misaligned" 2 (1 / 2)
      = .ok (hybridRanking lexM semM id "misaligned" 2 (1 / 2)) := by
  refine ⟨by decide, rfl, rfl⟩

/-! ## Rocchio lemmas -/

/-- C8: in each space the Rocchio update is
`alpha*q + beta*mean(relevant) - gamma*mean(nonrelevant)` with each mean term
omitted when its document set is empty (the code encodes an absent set as `None`,
built by `someIfNonempty`); the semantic result is additionally divided by its norm
plus `1e-9`, while the lexical result is left unnormalized; and with no feedback
vectors at all the update is `alpha * q`. -/
theorem rocchio_matches_spec (q : List ℝ) (alpha beta gamma : ℝ)
    (rel nonrel : List (List ℝ)) :
    rocchio_tfidf q (someIfNonempty rel) (someIfNonempty nonrel) alpha beta gamma
        = rocchioSpec q rel nonrel alpha beta gamma
  ∧ rocchio_emb q (someIfNonempty rel) (someIfNonempty nonrel) alpha beta gamma
      = (rocchioSpec q rel nonrel alpha beta gamma).map
          (fun x => x / (norm2 (rocchioSpec q rel nonrel alpha beta gamma) + rocchioEps))
  ∧ rocchio_tfidf q none none alpha beta gamma = smulVec alpha q := by
  have h1 : rocchio_tfidf q (someIfNonempty rel) (someIfNonempty nonrel)
      alpha beta gamma = rocchioSpec q rel nonrel alpha beta gamma := by
    cases rel with
    | nil =>
      cases nonrel with
      | nil => simp [rocchio_tfidf, rocchioSpec, someIfNonempty]
      | cons n ns => simp [rocchio_tfidf, rocchioSpec, someIfNonempty]
    | cons r rs =>
      cases nonrel with
      | nil => simp [rocchio_tfidf, rocchioSpec, someIfNonempty]
      | cons n ns => simp [rocchio_tfidf, rocchioSpec, someIfNonempty]
  refine ⟨h1, ?_, rfl⟩
  unfold rocchio_emb
  rw [h1]

theorem rocchio_tfidf_no_feedback (v : List ℝ) :
    rocchio_tfidf v none none ALPHA BETA GAMMA = v := by
  show smulVec 1 v = v
  exact smulVec_one v

theorem rocchio_emb_no_feedback (v : List ℝ) :
    rocchio_emb v none none ALPHA BETA GAMMA
      = v.map (fun x => x / (norm2 v + rocchioEps)) := by
  unfold rocchio_emb
  rw [rocchio_tfidf_no_feedback]

theorem cosineRows_rocchio_emb_no_feedback (v : List ℝ) (M : List (List ℝ)) :
    cosineRows (rocchio_emb v none none ALPHA BETA GAMMA) M = cosineRows v M := by
  rw [rocchio_emb_no_feedback]
  unfold cosineRows
  rw [show cosineSim (v.map (fun x => x / (norm2 v + rocchioEps))) = cosineSim v from
    funext (cosineSim_renormalized v)]

/-- C2 (amended): feedback search with an empty `relevant_doc_ids` list produces
the very same result as plain hybrid search with the same query, `topk` and
`lambda_weight` — provided the fitted vectorizer maps the raw query text and the
normalized query text to the same vector.  (The feedback path transforms the raw
query, skipping `normalize_text`; the semantic side always agrees because the
Rocchio-renormalized query embedding is a positive rescaling, which cosine
similarity ignores.) -/
theorem feedback_empty_ids_matches_hybrid (lex : LexIndex) (semI : SemIndex)
    (normalize_text : String → String) (q : String) (topk : ℕ) (lam : ℝ)
    (hT : lex.transform (normalize_text q) = lex.transform q) :
    apply_feedback_for_query lex semI q [] topk lam
      = hybridRanking lex semI normalize_text q topk lam := by
  unfold apply_feedback_for_query hybridRanking
  simp only [List.filterMap_nil, List.map_nil]
  rw [show someIfNonempty [] = none from rfl]
  rw [rocchio_tfidf_no_feedback, cosineRows_rocchio_emb_no_feedback, hT]

theorem feedback_empty_ids_matches_hybrid_witness :
    apply_feedback_for_query lexW semW "q" [] 3 (1 / 2)
      = hybridRanking lexW semW id "q" 3 (1 / 2) :=
  feedback_empty_ids_matches_hybrid lexW semW id "q" 3 (1 / 2) rfl

/-! ## Concrete cosine evaluations for the feedback counterexample -/

theorem sqrt_two_gt_one : (1 : ℝ) < Real.sqrt 2 := by
  nlinarith [Real.sq_sqrt (show (0 : ℝ) ≤ 2 by norm_num), Real.sqrt_nonneg 2]

theorem sqrt_two_pos : (0 : ℝ) < Real.sqrt 2 := Real.sqrt_pos.mpr (by norm_num)

theorem sqrt_eight_pos : (0 : ℝ) < Real.sqrt 8 := Real.sqrt_pos.mpr (by norm_num)

theorem inv_sqrt_two_lt_one : (Real.sqrt 2)⁻¹ < 1 := inv_lt_one_of_one_lt₀ sqrt_two_gt_one

theorem sqrt_two_mul_sqrt_eight : Real.sqrt 2 * Real.sqrt 8 = 4 := by
  rw [← Real.sqrt_mul (by norm_num), show (2 : ℝ) * 8 = 16 by norm_num,
    show (16 : ℝ) = 4 ^ 2 by norm_num, Real.sqrt_sq (by norm_num)]

theorem sqrt_eight_eq : Real.sqrt 8 = 2 * Real.sqrt 2 := by
  rw [show (8 : ℝ) = 4 * 2 by norm_num, Real.sqrt_mul (by norm_num),
    show (4 : ℝ) = 2 ^ 2 by norm_num, Real.sqrt_sq (by norm_num)]

theorem norm2_one_one : norm2 [(1 : ℝ), 1] = Real.sqrt 2 := by
  norm_num [norm2, dot]

theorem norm2_one_zero : norm2 [(1 : ℝ), 0] = 1 := by
  norm_num [norm2, dot, Real.sqrt_one]

theorem norm2_two_two : norm2 [(2 : ℝ), 2] = Real.sqrt 8 := by
  norm_num [norm2, dot]

theorem norm2_zero : norm2 [(0 : ℝ)] = 0 := by
  norm_num [norm2, dot, Real.sqrt_zero]

theorem cosineSim_eval1 : cosineSim [(1 : ℝ), 1] [1, 0] = (Real.sqrt 2)⁻¹ := by
  unfold cosineSim
  rw [norm2_one_one, norm2_one_zero,
    if_neg (by push_neg; exact ⟨sqrt_two_pos.ne', one_ne_zero⟩)]
  norm_num [dot]

theorem cosineSim_eval2 : cosineSim [(1 : ℝ), 1] [2, 2] = 1 := by
  unfold cosineSim
  rw [norm2_one_one, norm2_two_two,
    if_neg (by push_neg; exact ⟨sqrt_two_pos.ne', sqrt_eight_pos.ne'⟩),
    sqrt_two_mul_sqrt_eight]
  norm_num [dot]

theorem cosineSim_eval3 : cosineSim [(1 : ℝ), 0] [1, 0] = 1 := by
  unfold cosineSim
  rw [norm2_one_zero, if_neg (by push_neg; exact ⟨one_ne_zero, one_ne_zero⟩)]
  norm_num [dot]

theorem cosineSim_eval4 : cosineSim [(1 : ℝ), 0] [2, 2] = (Real.sqrt 2)⁻¹ := by
  unfold cosineSim
  rw [norm2_one_zero, norm2_two_two,
    if_neg (by push_neg; exact ⟨one_ne_zero, sqrt_eight_pos.ne'⟩), sqrt_eight_eq]
  rw [one_mul, div_mul_eq_div_div]
  norm_num [dot, one_div]

theorem cosineSim_eval0 : cosineSim [(0 : ℝ)] [0] = 0 := by
  unfold cosineSim
  rw [if_pos (Or.inl norm2_zero)]

theorem argsortDesc_low_high :
    argsortDesc [(Real.sqrt 2)⁻¹, 1] = [1, 0] := by
  unfold argsortDesc
  rw [show ([(Real.sqrt 2)⁻¹, (1 : ℝ)]).enum
      = [(0, (Real.sqrt 2)⁻¹), (1, 1)] from rfl]
  simp only [List.insertionSort, List.orderedInsert]
  rw [if_neg (show ¬rankRel (0, (Real.sqrt 2)⁻¹) (1, (1 : ℝ)) from by
    intro hcon
    rcases hcon with hlt | ⟨heq, _⟩
    · exact absurd (lt_trans hlt inv_sqrt_two_lt_one) (lt_irrefl _)
    · have h1 : (Real.sqrt 2)⁻¹ = (1 : ℝ) := heq
      exact absurd (h1 ▸ inv_sqrt_two_lt_one) (lt_irrefl _))]
  simp [List.orderedInsert]

theorem argsortDesc_high_low :
    argsortDesc [1, (Real.sqrt 2)⁻¹] = [0, 1] := by
  unfold argsortDesc
  rw [show ([1, (Real.sqrt 2)⁻¹] : List ℝ).enum
      = [(0, (1 : ℝ)), (1, (Real.sqrt 2)⁻¹)] from rfl]
  simp only [List.insertionSort, List.orderedInsert]
  rw [if_pos (show rankRel (0, (1 : ℝ)) (1, (Real.sqrt 2)⁻¹) from
    Or.inl inv_sqrt_two_lt_one)]
  simp

/-- C2 counterexample: a fitted index on which feedback search with empty relevant
ids ranks the two documents in the opposite order from hybrid search with the same
query, `topk` and `lambda_weight` — the feedback path vectorizes the raw query
"running stress" (whose "running" is out of the stemmed vocabulary) while hybrid
search vectorizes the normalized query "run stress". -/
theorem feedback_empty_ids_differs_from_hybrid :
    hybrid_search lexC semC nrmC "running stress" 2 0
      = .ok (hybridRanking lexC semC nrmC "running stress" 2 0)
  ∧ (apply_feedback_for_query lexC semC "running stress" [] 2 0).map
        (fun r => r.doc.id)
      ≠ (hybridRanking lexC semC nrmC "running stress" 2 0).map
          (fun r => r.doc.id) := by
  have htf : cosineRows (lexC.transform (nrmC "running stress")) lexC.X
      = [(Real.sqrt 2)⁻¹, 1] := by
    rw [show lexC.transform (nrmC "running stress") = [1, 1] from rfl]
    show [cosineSim [1, 1] [1, 0], cosineSim [1, 1] [2, 2]] = _
    rw [cosineSim_eval1, cosineSim_eval2]
  have hsem : cosineRows (semC.encode "running stress") semC.emb = [0, 0] := by
    show [cosineSim [0] [0], cosineSim [0] [0]] = _
    rw [cosineSim_eval0]
  have hhyb : (hybridRanking lexC semC nrmC "running stress" 2 0).map
      (fun r => r.doc.id) = ["2", "1"] := by
    simp only [hybridRanking]
    rw [htf, hsem, fuse_zero [0, 0] [(Real.sqrt 2)⁻¹, 1] rfl, argsortDesc_low_high]
    rfl
  have htf' : cosineRows (lexC.transform "running stress") lexC.X
      = [1, (Real.sqrt 2)⁻¹] := by
    rw [show lexC.transform "running stress" = [1, 0] from rfl]
    show [cosineSim [1, 0] [1, 0], cosineSim [1, 0] [2, 2]] = _
    rw [cosineSim_eval3, cosineSim_eval4]
  have hfb : (apply_feedback_for_query lexC semC "running stress" [] 2 0).map
      (fun r => r.doc.id) = ["1", "2"] := by
    simp only [apply_feedback_for_query, List.filterMap_nil, List.map_nil]
    rw [show someIfNonempty [] = none from rfl, rocchio_tfidf_no_feedback,
      cosineRows_rocchio_emb_no_feedback, htf']
    rw [show cosineRows (semC.encode "running stress") semC.emb = [0, 0] from hsem]
    rw [fuse_zero [0, 0] [1, (Real.sqrt 2)⁻¹] rfl, argsortDesc_high_low]
    rfl
  refine ⟨rfl, ?_⟩
  rw [hhyb, hfb]
  decide

/-! ## Index persistence round-trip -/

/-- C9: `load_index` right after `build_index` returns the joblib artifacts (the
fitted vectorizer and the document-weight matrix) identical to what `build_index`
produced — but the document table is not row-for-row identical: `pd.read_csv`'s
dtype inference turns the string id `"1"` written by `build_index` into the
integer `1`. -/
theorem load_after_build_roundtrip :
    (∀ (V M : Type) (fit : List String → V × M) (normalize_text : String → String)
        (corpus : List CorpusRow) (st : Storage V M),
        (load_index fit normalize_text corpus
            (build_index fit normalize_text corpus st).2).1
          = (build_index fit normalize_text corpus st).1.1
      ∧ (load_index fit normalize_text corpus
            (build_index fit normalize_text corpus st).2).2.1
          = (build_index fit normalize_text corpus st).1.2.1)
  ∧ (load_index (fun _ => ((), ())) id [⟨"1", "t", "x"⟩]
        (build_index (fun _ => ((), ())) id [⟨"1", "t", "x"⟩] ⟨none, none, none⟩).2).2.2
      ≠ docsAsCells
          (build_index (fun _ => ((), ())) id [⟨"1", "t", "x"⟩]
            ⟨none, none, none⟩).1.2.2 := by
  refine ⟨fun V M fit normalize_text corpus st => ⟨rfl, rfl⟩, by decide⟩
